import Mathlib

/-!
Verification of the minified-JavaScript bundle analyzer against its
natural-language specification.

The JavaScript sources are shallowly embedded: strings become `List Char`,
JS numbers that are used as indices/offsets become `ℕ` or `ℤ` (matching the
sign behaviour actually exercised), `undefined`-able characters become
`Option Char`, and each analyzer function is translated statement by
statement from its `.mjs` source.  A character that is a brace is written
with its hexadecimal escape in literals below.
-/

namespace BundleAnalyzer

/-! ## Character state machine (lib/state-machine.mjs) -/

/-- Parser states; the source uses the integer constants
`S_NORMAL = 0 … S_COMMENT_BLOCK = 6`. -/
inductive PState where
  | normal
  | stringSingle
  | stringDouble
  | template
  | regex
  | commentLine
  | commentBlock
deriving DecidableEq, Repr

/-- The mutable record `{ state, escaped, templateDepth }` returned by
`createStateMachine()`. -/
structure SM where
  state : PState
  escaped : Bool
  templateDepth : ℕ
deriving DecidableEq, Repr

/-- `createStateMachine()`. -/
def createStateMachine : SM :=
  { state := .normal, escaped := false, templateDepth := 0 }

/-- `isRegexContext(prevNonWS)`: characters after which `/` starts a regex.
`prevNonWS` is `Option Char` because the JS code initialises it to the empty
string (falsy), which the first branch turns into `true`. -/
def isRegexContext (prevNonWS : Option Char) : Bool :=
  match prevNonWS with
  | none => true
  | some c => ("=(:;,!&|?\x7b[+->~%^".toList).contains c || c = '\n'

/-- `advanceState(sm, ch, nextCh, prevNonWS)`, translated branch by branch.
`ch`/`nextCh` are `Option Char`: the callers pass `''`/`undefined` past the
end of the buffer, which compares unequal to every character. -/
def advanceState (sm : SM) (ch : Option Char) (nextCh : Option Char)
    (prevNonWS : Option Char) : SM :=
  if sm.escaped then { sm with escaped := false }
  else if ch = some '\\' && !(sm.state = .commentLine) && !(sm.state = .commentBlock)
      && !(sm.state = .normal) then
    { sm with escaped := true }
  else
    match sm.state with
    | .normal =>
      if ch = some '\'' then { sm with state := .stringSingle }
      else if ch = some '"' then { sm with state := .stringDouble }
      else if ch = some '`' then { sm with state := .template, templateDepth := 0 }
      else if ch = some '/' && nextCh = some '/' then { sm with state := .commentLine }
      else if ch = some '/' && nextCh = some '*' then { sm with state := .commentBlock }
      else if ch = some '/' && isRegexContext prevNonWS then { sm with state := .regex }
      else sm
    | .stringSingle => if ch = some '\'' then { sm with state := .normal } else sm
    | .stringDouble => if ch = some '"' then { sm with state := .normal } else sm
    | .template =>
      if ch = some '\\' then { sm with escaped := true }
      else if ch = some '`' && sm.templateDepth = 0 then { sm with state := .normal }
      else if ch = some '$' && nextCh = some '\x7b' then
        { sm with templateDepth := sm.templateDepth + 1 }
      else if ch = some '\x7d' && sm.templateDepth > 0 then
        { sm with templateDepth := sm.templateDepth - 1 }
      else sm
    | .regex =>
      -- the source has two consecutive (non-exclusive) `if`s here
      let sm1 := if ch = some '/' then { sm with state := .normal } else sm
      if ch = some '\\' then { sm1 with escaped := true } else sm1
    | .commentLine => if ch = some '\n' then { sm with state := .normal } else sm
    | .commentBlock =>
      if ch = some '*' && nextCh = some '/' then { sm with state := .normal } else sm

/-- `isInCode(state)`. -/
def isInCode (s : PState) : Bool := s = .normal

/-! ### The shared scan driver

Every caller of `advanceState` uses the same loop shape:
`advanceState(sm, src[i], src[i+1] ?? '', prevNonWS)` followed by
`if (ch !== ' ' && ch !== '\t' && ch !== '\n' && ch !== '\r') prevNonWS = ch`.
-/

/-- The whitespace filter guarding the `prevNonWS` update in every driver. -/
def isTrackedWS (c : Char) : Bool :=
  c = ' ' || c = '\t' || c = '\n' || c = '\r'

/-- State threaded through a scan: the machine plus `prevNonWS`. -/
structure SMRun where
  sm : SM
  prevNonWS : Option Char
deriving DecidableEq, Repr

/-- One driver iteration at index `i` of `src`. -/
def smStep (src : List Char) (i : ℕ) (r : SMRun) : SMRun :=
  let ch := src.get? i
  let nextCh := src.get? (i + 1)
  let sm := advanceState r.sm ch nextCh r.prevNonWS
  let prev :=
    match ch with
    | some c => if isTrackedWS c then r.prevNonWS else some c
    | none => none
  ⟨sm, prev⟩

/-- Run `n` driver iterations starting at index `i`. -/
def smRunSteps (src : List Char) : ℕ → ℕ → SMRun → SMRun
  | _, 0, r => r
  | i, n + 1, r => smRunSteps src (i + 1) n (smStep src i r)

/-- Fresh start of a scan: `createStateMachine()` with `prevNonWS = ''`. -/
def smInit : SMRun := ⟨createStateMachine, none⟩

/-- The machine state after consuming characters `0 … n` of `src`
(each fed with its successor and the last non-whitespace character). -/
def smStateAfter (src : List Char) (n : ℕ) : PState :=
  (smRunSteps src 0 (n + 1) smInit).sm.state

/-! ## Claim C1 -/

/-- C1: driving the state machine over `x=a/b`, the `/` at index 3 is
consumed in state `Normal` (division); over `x=/ab/`, the `/` at index 2
enters `Regex` and the closing `/` at index 5 returns to `Normal`. -/
theorem c1_state_machine_regex_vs_division :
    smStateAfter "x=a/b".toList 3 = .normal ∧
    smStateAfter "x=/ab/".toList 2 = .regex ∧
    smStateAfter "x=/ab/".toList 5 = .normal := by
  refine ⟨?_, ?_, ?_⟩ <;> decide

/-! ## JS string primitives -/

/-- Does `pat` occur at the very start of `s`? (`String.prototype.startsWith`-style
comparison used to characterise `indexOf`.) -/
def prefixMatch : List Char → List Char → Bool
  | [], _ => true
  | _ :: _, [] => false
  | a :: as, b :: bs => a = b && prefixMatch as bs

/-- `s.substring(a, b)` for already-clamped non-negative arguments
(JS swaps the endpoints when `a > b`). -/
def jsSubstring (s : List Char) (a b : ℕ) : List Char :=
  (s.take (max a b)).drop (min a b)

/-- Scan loop of `s.replace(/pat/g, repl)` for a fixed literal pattern:
left to right, replacing each (non-overlapping) occurrence.  The fuel is
structural; `replaceAllSub` supplies `s.length`, which always suffices. -/
def replaceAllLoop (pat repl : List Char) : ℕ → List Char → List Char
  | 0, s => s
  | fuel + 1, s =>
    match s with
    | [] => []
    | c :: rest =>
      if pat ≠ [] ∧ prefixMatch pat (c :: rest) then
        repl ++ replaceAllLoop pat repl fuel (rest.drop (pat.length - 1))
      else
        c :: replaceAllLoop pat repl fuel rest

/-- `s.replace(/pat/g, repl)` for a fixed (non-empty) literal pattern. -/
def replaceAllSub (pat repl s : List Char) : List Char :=
  replaceAllLoop pat repl s.length s

/-- `s.indexOf(pat, start)`: the least position `p ≥ min(start, s.length)`
where `pat` occurs (`-1` if none).  `findFrom` is the bounded search loop. -/
def findFrom (src pat : List Char) : ℕ → ℕ → Option ℕ
  | _, 0 => none
  | p, fuel + 1 =>
    if prefixMatch pat (src.drop p) then some p else findFrom src pat (p + 1) fuel

/-- `src.indexOf(pat, start)` with JS clamping semantics (an empty `pat`
yields `min(start, src.length)`). -/
def jsIndexOf (src pat : List Char) (start : ℕ) : ℤ :=
  let s := min start src.length
  match findFrom src pat s (src.length + 1 - s) with
  | some p => (p : ℤ)
  | none => -1

/-- Occurrence of `pat` in `src` at position `i` (spec-side notion used to
state the patch-uniqueness law). -/
def matchesAt (src pat : List Char) (i : ℕ) : Bool :=
  prefixMatch pat (src.drop i)

/-- The number of positions of `src` at which `pat` occurs (overlapping
occurrences counted, as the analyzer's `idx = found + 1` loop does). -/
def countOccurrences (src pat : List Char) : ℕ :=
  ((List.range src.length).filter (fun i => matchesAt src pat i)).length

/-! ## Shorthand expansion (lib/find.mjs, `expandShorthands`) -/

/-- `expandShorthands(pattern)`: `%V%` is replaced by the JS string
`'[\\w$]+'` (value `[\w$]+`) and `%S%` by `'"(?:[^"\\\\\\\\]|\\\\\\\\.)*"'`,
whose VALUE carries four consecutive backslashes in each escape position
(each `\\` below is one backslash character). -/
def expandShorthands (pattern : List Char) : List Char :=
  replaceAllSub "%S%".toList "\"(?:[^\"\\\\\\\\]|\\\\\\\\.)*\"".toList
    (replaceAllSub "%V%".toList "[\\w$]+".toList pattern)

/-! ## Claim C3 -/

/-- C3: `expandShorthands` expands `%V%` to `[\w$]+` as specified, but it
expands `%S%` to a regex whose escape alternative carries FOUR backslashes
(matching two literal backslashes before the escaped character), not the
specified two-backslash text `"(?:[^"\\]|\\.)*"` (single-backslash escapes);
the two texts differ.  This evaluates the code at the failing input `%S%`. -/
theorem c3_shorthand_expansion_bug_eval :
    expandShorthands "%V%".toList = "[\\w$]+".toList ∧
    expandShorthands "%S%".toList = "\"(?:[^\"\\\\\\\\]|\\\\\\\\.)*\"".toList ∧
    expandShorthands "%S%".toList ≠ "\"(?:[^\"\\\\]|\\\\.)*\"".toList := by
  refine ⟨?_, ?_, ?_⟩ <;> decide

/-! ## Patch validator (lib/patch-check.mjs), literal mode

`checkPatch` with `options.regex = false`; the regex branch delegates
matching to the host regex engine and is outside this embedding.  Warnings
are rendered as strings in the source; here each distinct warning string is
one constructor (the `null` placeholder pushed for "in code context" becomes
`none`, removed by the final `filter(Boolean)` = `filterMap id`). -/

/-- `status` values `'NOT_FOUND' | 'UNIQUE' | 'AMBIGUOUS'`. -/
inductive PatchStatus where
  | NOT_FOUND
  | UNIQUE
  | AMBIGUOUS
deriving DecidableEq, Repr

/-- One entry of `matches[]`. -/
structure PatchMatch where
  offset : ℕ
  matchText : List Char
  context : List Char
  contextOffset : ℕ
deriving DecidableEq, Repr

/-- The two warning kinds pushed by `checkPatch` (their rendered strings
start `Pattern contains short identifier(s) […]` and
`Pattern match is inside a string or comment …` respectively). -/
inductive PatchWarning where
  | shortIdentifiers (ids : List (List Char))
  | nonCodeContext
deriving DecidableEq, Repr

/-- The replacement `preview` record. -/
structure PatchPreview where
  before : List Char
  after : List Char
deriving DecidableEq, Repr

/-- The record returned by `checkPatch` (`matchList` is the source's
`matches` field; that identifier is reserved in Lean). -/
structure PatchResult where
  status : PatchStatus
  matchCount : ℕ
  matchList : List PatchMatch
  warnings : List PatchWarning
  preview : Option PatchPreview
deriving DecidableEq, Repr

/-- `isOffsetInCode(src, offset)`: run a fresh state machine from
`max(0, offset − 50000)` (natural subtraction) up to and including `offset`
and test `isInCode`. -/
def isOffsetInCode (src : List Char) (offset : ℕ) : Bool :=
  let scanStart := offset - 50000
  isInCode (smRunSteps src scanStart (offset + 1 - scanStart) smInit).sm.state

/-- Word character for the JS `\b` assertion (`$` is NOT a word character). -/
def isWordChar (c : Char) : Bool :=
  ('A' ≤ c && c ≤ 'Z') || ('a' ≤ c && c ≤ 'z') || ('0' ≤ c && c ≤ '9') || c = '_'

/-- Character class `[A-Za-z_$]` of the short-identifier pattern. -/
def isShortIdChar (c : Char) : Bool :=
  ('A' ≤ c && c ≤ 'Z') || ('a' ≤ c && c ≤ 'z') || c = '_' || c = '$'

/-- Word-ness of position `i` (out of range counts as non-word). -/
def wordAt (s : List Char) (i : ℕ) : Bool :=
  match s.get? i with
  | some c => isWordChar c
  | none => false

/-- The `\b` assertion between positions `i-1` and `i`. -/
def boundaryAt (s : List Char) (i : ℕ) : Bool :=
  (match i with
   | 0 => false
   | j + 1 => wordAt s j) != wordAt s i

/-- Do positions `i … i+len-1` all hold `[A-Za-z_$]` characters? -/
def shortIdRun (s : List Char) (i len : ℕ) : Bool :=
  (List.range len).all fun k =>
    match s.get? (i + k) with
    | some c => isShortIdChar c
    | none => false

/-- Match of `/\b[A-Za-z_$]{1,3}\b/` anchored at position `i` (greedy with
backtracking: lengths 3, 2, 1). Returns the matched length. -/
def shortIdMatchAt (s : List Char) (i : ℕ) : Option ℕ :=
  if !boundaryAt s i then none
  else if shortIdRun s i 3 && boundaryAt s (i + 3) then some 3
  else if shortIdRun s i 2 && boundaryAt s (i + 2) then some 2
  else if shortIdRun s i 1 && boundaryAt s (i + 1) then some 1
  else none

/-- Global scan of `pattern.match(/\b[A-Za-z_$]{1,3}\b/g)`: collect
non-overlapping matches left to right. -/
def shortIdScan (s : List Char) : ℕ → ℕ → List (List Char)
  | 0, _ => []
  | fuel + 1, pos =>
    match shortIdMatchAt s pos with
    | some len => jsSubstring s pos (pos + len) :: shortIdScan s fuel (pos + len)
    | none =>
      if pos < s.length then shortIdScan s fuel (pos + 1) else []

/-- All short-identifier matches of the pattern. -/
def shortIdMatches (pat : List Char) : List (List Char) :=
  shortIdScan pat (pat.length + 1) 0

/-- `[...new Set(xs)]`: deduplicate keeping first occurrences. -/
def dedupKeepFirst {α : Type} [DecidableEq α] (l : List α) : List α :=
  l.foldl (fun acc x => if x ∈ acc then acc else acc ++ [x]) []

/-- The reserved-word filter list of the short-identifier warning. -/
def reservedShortIds : List (List Char) :=
  ["var", "let", "for", "if", "of", "in", "do", "new"].map String.toList

/-- The match entry pushed for a literal hit at position `f`:
`±200` characters of context, `Math.max(0, found − 200)` as natural
subtraction. -/
def mkPatchEntry (src pat : List Char) (f : ℕ) : PatchMatch :=
  { offset := f, matchText := pat,
    context := jsSubstring src (f - 200) (min src.length (f + pat.length + 200)),
    contextOffset := f - 200 }

/-- The match list built by the literal-mode search loop
(`idx = found + 1` after every hit), with explicit fuel: `none` means the
fuel ran out before the loop broke. -/
def literalLoop (src pat : List Char) : ℕ → ℕ → List PatchMatch → Option (List PatchMatch)
  | 0, _, _ => none
  | fuel + 1, idx, acc =>
    let found := jsIndexOf src pat idx
    if found < 0 then some acc
    else literalLoop src pat fuel (found.toNat + 1) (acc ++ [mkPatchEntry src pat found.toNat])

/-- Termination of the literal search loop of `checkPatch`: some amount of
fuel lets the loop reach its `found < 0` break. -/
def checkPatchLiteralTerminates (src pat : List Char) : Prop :=
  ∃ fuel, (literalLoop src pat fuel 0 []).isSome

/-- `checkPatch(src, pattern, replacement, { regex: false })`.  The loop is
given fuel `src.length + 2`, which suffices for every non-empty pattern
(`checkPatchLiteral_isSome`); `none` reports the diverging empty-pattern
case. -/
def checkPatchLiteral (src pat : List Char) (replacement : Option (List Char)) :
    Option PatchResult :=
  (literalLoop src pat (src.length + 2) 0 []).map fun ms =>
    let status :=
      if ms.length = 0 then PatchStatus.NOT_FOUND
      else if ms.length = 1 then PatchStatus.UNIQUE
      else PatchStatus.AMBIGUOUS
    let shortIds := shortIdMatches pat
    let warnShort : List (Option PatchWarning) :=
      if shortIds ≠ [] then
        let uniq := (dedupKeepFirst shortIds).filter fun nm => !reservedShortIds.contains nm
        if uniq.length > 0 then [some (.shortIdentifiers uniq)] else []
      else []
    let warnCode : List (Option PatchWarning) :=
      if ms.length = 1 then
        match ms.head? with
        | some m =>
          if isOffsetInCode src m.offset then [none] else [some .nonCodeContext]
        | none => []
      else []
    let preview : Option PatchPreview :=
      match replacement, ms with
      | some repl, [m] =>
        let matchLen := if m.matchText ≠ [] then m.matchText.length else pat.length
        let matchedText := if m.matchText ≠ [] then m.matchText else pat
        let before := jsSubstring src (m.offset - 60) m.offset
        let after :=
          jsSubstring src (m.offset + matchLen) (min src.length (m.offset + matchLen + 60))
        some { before := before ++ matchedText ++ after,
               after := before ++ repl ++ after }
      | _, _ => none
    { status := status, matchCount := ms.length, matchList := ms,
      warnings := (warnShort ++ warnCode).filterMap id, preview := preview }

/-! ### Characterisation of `indexOf` and the literal search loop -/

lemma prefixMatch_length_le {pat s : List Char} (h : prefixMatch pat s = true) :
    pat.length ≤ s.length := by
  induction pat generalizing s with
  | nil => simp
  | cons a as ih =>
    cases s with
    | nil => simp [prefixMatch] at h
    | cons b bs =>
      simp only [prefixMatch, Bool.and_eq_true] at h
      simpa using ih h.2

lemma prefixMatch_drop_lt {src pat : List Char} {q : ℕ} (hp : pat ≠ [])
    (h : prefixMatch pat (src.drop q) = true) : q < src.length := by
  have h1 := prefixMatch_length_le h
  have h2 : 1 ≤ pat.length := by
    cases pat with
    | nil => exact absurd rfl hp
    | cons _ _ => simp
  simp only [List.length_drop] at h1
  omega

lemma findFrom_some {src pat : List Char} {p fuel q : ℕ}
    (h : findFrom src pat p fuel = some q) :
    p ≤ q ∧ q < p + fuel ∧ prefixMatch pat (src.drop q) = true ∧
      ∀ r, p ≤ r → r < q → prefixMatch pat (src.drop r) = false := by
  induction fuel generalizing p with
  | zero => simp [findFrom] at h
  | succ n ih =>
    rw [findFrom] at h
    by_cases hm : prefixMatch pat (src.drop p) = true
    · simp only [hm, if_true, Option.some.injEq] at h
      subst h
      exact ⟨le_refl _, by omega, hm, fun r h1 h2 => by omega⟩
    · have hm' : prefixMatch pat (src.drop p) = false := by
        simpa using hm
      simp only [hm', Bool.false_eq_true, if_false] at h
      obtain ⟨h1, h2, h3, h4⟩ := ih h
      refine ⟨by omega, by omega, h3, ?_⟩
      intro r hr1 hr2
      rcases Nat.eq_or_lt_of_le hr1 with hr | hr
      · exact hr ▸ hm'
      · exact h4 r hr hr2

lemma findFrom_none {src pat : List Char} {p fuel : ℕ}
    (h : findFrom src pat p fuel = none) :
    ∀ q, p ≤ q → q < p + fuel → prefixMatch pat (src.drop q) = false := by
  induction fuel generalizing p with
  | zero => intro q h1 h2; omega
  | succ n ih =>
    rw [findFrom] at h
    by_cases hm : prefixMatch pat (src.drop p) = true
    · simp [hm] at h
    · have hm' : prefixMatch pat (src.drop p) = false := by simpa using hm
      simp only [hm', Bool.false_eq_true, if_false] at h
      intro q h1 h2
      rcases Nat.eq_or_lt_of_le h1 with hr | hr
      · exact hr ▸ hm'
      · exact ih h q hr (by omega)

lemma jsIndexOf_neg {src pat : List Char} {idx : ℕ}
    (h : jsIndexOf src pat idx < 0) :
    ∀ q, idx ≤ q → q ≤ src.length → prefixMatch pat (src.drop q) = false := by
  intro q h1 h2
  rw [jsIndexOf] at h
  cases hF : findFrom src pat (min idx src.length) (src.length + 1 - min idx src.length) with
  | some p => rw [hF] at h; simp at h; omega
  | none =>
    exact findFrom_none hF q (by omega) (by omega)

lemma jsIndexOf_nonneg {src pat : List Char} {idx : ℕ}
    (h : 0 ≤ jsIndexOf src pat idx) :
    ∃ p : ℕ, jsIndexOf src pat idx = (p : ℤ) ∧ min idx src.length ≤ p ∧ p ≤ src.length ∧
      prefixMatch pat (src.drop p) = true ∧
      ∀ r, min idx src.length ≤ r → r < p → prefixMatch pat (src.drop r) = false := by
  rw [jsIndexOf] at h ⊢
  cases hF : findFrom src pat (min idx src.length) (src.length + 1 - min idx src.length) with
  | none => rw [hF] at h; simp at h
  | some p =>
    obtain ⟨h1, h2, h3, h4⟩ := findFrom_some hF
    exact ⟨p, by rfl, h1, by omega, h3, h4⟩

lemma literalLoop_nil_pat (src : List Char) :
    ∀ fuel idx acc, literalLoop src [] fuel idx acc = none := by
  intro fuel
  induction fuel with
  | zero => intro idx acc; rfl
  | succ n ih =>
    intro idx acc
    have hidx : ¬ jsIndexOf src [] idx < 0 := by
      rw [jsIndexOf]
      have hs : src.length + 1 - min idx src.length
          = (src.length - min idx src.length) + 1 := by omega
      rw [hs, findFrom]
      simp [prefixMatch]
    rw [literalLoop]
    simp only [hidx, if_false]
    exact ih _ _

lemma literalLoop_isSome {src pat : List Char} (hp : pat ≠ []) :
    ∀ fuel idx acc, src.length + 1 - idx < fuel →
      (literalLoop src pat fuel idx acc).isSome = true := by
  intro fuel
  induction fuel with
  | zero => intro idx acc h; omega
  | succ n ih =>
    intro idx acc h
    rw [literalLoop]
    by_cases hneg : jsIndexOf src pat idx < 0
    · simp [hneg]
    · obtain ⟨p, hpeq, hmin, hple, hmatch, _⟩ := jsIndexOf_nonneg (le_of_not_lt hneg)
      have hplt : p < src.length := prefixMatch_drop_lt hp hmatch
      have hidx : idx ≤ src.length := by
        by_contra hgt
        have : min idx src.length = src.length := by omega
        omega
      have hpidx : idx ≤ p := by
        have : min idx src.length = idx := by omega
        omega
      simp only [hneg, if_false]
      rw [hpeq]
      simp only [Int.toNat_ofNat]
      exact ih (p + 1) _ (by omega)

/-! ## Claim C8 -/

/-- C8: the claim (and the spec's totality promise) is right about the
intent, but the code has a bug: on source `ab` with the EMPTY pattern the
literal search loop of `checkPatch` never reaches its `found < 0` break
(`indexOf('', idx)` clamps to the buffer length and stays non-negative),
so `checkPatch` diverges instead of returning a structured result. -/
theorem c8_counterexample_empty_pattern :
    ¬ checkPatchLiteralTerminates "ab".toList [] := by
  rintro ⟨fuel, h⟩
  rw [literalLoop_nil_pat] at h
  simp at h

/-- For every source buffer, every NON-empty pattern and any replacement
option, literal-mode `checkPatch` does terminate and return a structured
result value — the divergence refuting C8 is confined to the empty
pattern. -/
theorem c8_literal_mode_totality (src pat : List Char) (repl : Option (List Char))
    (hp : pat ≠ []) : (checkPatchLiteral src pat repl).isSome = true := by
  rw [checkPatchLiteral]
  have h := @literalLoop_isSome src pat hp (src.length + 2) 0 [] (by omega)
  cases hL : literalLoop src pat (src.length + 2) 0 [] with
  | none => rw [hL] at h; simp at h
  | some ms => simp

/-- The non-empty-pattern totality theorem applied at the concrete input
`src = "ab"`, `pat = "a"`. -/
theorem c8_witness : (checkPatchLiteral "ab".toList "a".toList none).isSome = true :=
  c8_literal_mode_totality "ab".toList "a".toList none (by decide)

/-! ### The literal match list is exactly the occurrence list -/

lemma filter_range_split {n p idx : ℕ} (m : ℕ → Bool) (hpn : p < n) (hmp : m p = true)
    (hip : idx ≤ p) (hmin : ∀ q, idx ≤ q → q < p → m q = false) :
    (List.range n).filter (fun q => decide (idx ≤ q) && m q)
      = p :: (List.range n).filter (fun q => decide (p + 1 ≤ q) && m q) := by
  obtain ⟨k, hk⟩ : ∃ k, n - p = k + 1 := ⟨n - p - 1, by omega⟩
  have hsplit : List.range n = List.range' 0 p ++ List.range' p (n - p) := by
    rw [List.range_eq_range']
    have h := (List.range'_append 0 p (n - p) 1).symm
    rw [show n - p + p = n from by omega, show 0 + 1 * p = p from by omega] at h
    exact h
  have htail : List.range' p (n - p) = p :: List.range' (p + 1) k := by
    rw [hk, List.range'_succ]
  have hlow1 : (List.range' 0 p).filter (fun q => decide (idx ≤ q) && m q) = [] := by
    rw [List.filter_eq_nil]
    intro q hq
    have hqlt : q < p := by
      have := List.mem_range'_1.mp hq
      omega
    by_cases hiq : idx ≤ q
    · simp [hmin q hiq hqlt]
    · simp [hiq]
  have hlow2 : (List.range' 0 p).filter (fun q => decide (p + 1 ≤ q) && m q) = [] := by
    rw [List.filter_eq_nil]
    intro q hq
    have hqlt : q < p := by
      have := List.mem_range'_1.mp hq
      omega
    simp [show ¬ (p + 1 ≤ q) from by omega]
  have hcong : (List.range' (p + 1) k).filter (fun q => decide (idx ≤ q) && m q)
      = (List.range' (p + 1) k).filter (fun q => decide (p + 1 ≤ q) && m q) := by
    apply List.filter_congr
    intro q hq
    have hq1 : p + 1 ≤ q := by
      have := List.mem_range'_1.mp hq
      omega
    simp [hq1, show idx ≤ q from by omega]
  rw [hsplit, htail]
  rw [List.filter_append, List.filter_append, hlow1, hlow2]
  rw [List.filter_cons, List.filter_cons]
  simp only [hip, hmp, decide_True, Bool.and_self, Bool.true_and,
    show ¬ (p + 1 ≤ p) from by omega, decide_False, Bool.false_and]
  simp [hcong]

lemma literalLoop_some_eq {src pat : List Char} (hp : pat ≠ []) :
    ∀ fuel idx acc ms, literalLoop src pat fuel idx acc = some ms →
      ms = acc ++ ((List.range src.length).filter
        (fun q => decide (idx ≤ q) && matchesAt src pat q)).map (mkPatchEntry src pat) := by
  intro fuel
  induction fuel with
  | zero => intro idx acc ms h; simp [literalLoop] at h
  | succ n ih =>
    intro idx acc ms h
    rw [literalLoop] at h
    by_cases hneg : jsIndexOf src pat idx < 0
    · simp only [hneg, if_true, Option.some.injEq] at h
      subst h
      have hnil : (List.range src.length).filter
          (fun q => decide (idx ≤ q) && matchesAt src pat q) = [] := by
        rw [List.filter_eq_nil]
        intro q hq
        have hqlt : q < src.length := List.mem_range.mp hq
        by_cases hiq : idx ≤ q
        · simp [matchesAt, jsIndexOf_neg hneg q hiq (by omega)]
        · simp [hiq]
      simp [hnil]
    · obtain ⟨p, hpeq, hmin, hple, hmatch, hleast⟩ := jsIndexOf_nonneg (le_of_not_lt hneg)
      have hplt : p < src.length := prefixMatch_drop_lt hp hmatch
      have hidx : idx ≤ src.length := by
        by_contra hgt
        have : min idx src.length = src.length := by omega
        omega
      have hpidx : idx ≤ p := by
        have : min idx src.length = idx := by omega
        omega
      simp only [hneg, if_false] at h
      rw [hpeq] at h
      simp only [Int.toNat_ofNat] at h
      have := ih (p + 1) _ _ h
      rw [this]
      rw [filter_range_split (m := matchesAt src pat) hplt hmatch hpidx
        (fun q hq1 hq2 => by
          simpa [matchesAt] using hleast q (by omega) hq2)]
      simp

/-! ## Claim C2 -/

/-- C2: whenever literal-mode `checkPatch` returns, its status is
`NOT_FOUND`, `UNIQUE`, or `AMBIGUOUS` according as the number of
occurrences of the pattern in the buffer is 0, 1, or more than 1; in
particular the status is `UNIQUE` iff the pattern occurs exactly once. -/
theorem c2_patch_status_law (src pat : List Char) (repl : Option (List Char))
    (r : PatchResult) (h : checkPatchLiteral src pat repl = some r) :
    (r.status = PatchStatus.NOT_FOUND ↔ countOccurrences src pat = 0) ∧
    (r.status = PatchStatus.UNIQUE ↔ countOccurrences src pat = 1) ∧
    (r.status = PatchStatus.AMBIGUOUS ↔ 1 < countOccurrences src pat) := by
  have hp : pat ≠ [] := by
    rintro rfl
    rw [checkPatchLiteral, literalLoop_nil_pat] at h
    simp at h
  rw [checkPatchLiteral] at h
  cases hL : literalLoop src pat (src.length + 2) 0 [] with
  | none => rw [hL] at h; simp at h
  | some ms =>
    rw [hL, Option.map_some'] at h
    have hr := Option.some.inj h
    have hms := literalLoop_some_eq hp _ _ _ _ hL
    have hlen : ms.length = countOccurrences src pat := by
      rw [hms]
      simp only [List.nil_append, List.length_map, countOccurrences]
      congr 1
      apply List.filter_congr
      intro q _
      simp
    have hstatus : r.status =
        (if ms.length = 0 then PatchStatus.NOT_FOUND
         else if ms.length = 1 then PatchStatus.UNIQUE
         else PatchStatus.AMBIGUOUS) := by
      rw [← hr]
    rw [hlen] at hstatus
    rcases (by omega : countOccurrences src pat = 0 ∨ countOccurrences src pat = 1 ∨
        1 < countOccurrences src pat) with h0 | h1 | h2
    · rw [h0] at hstatus ⊢
      simp only [if_true, eq_self_iff_true] at hstatus
      rw [hstatus]
      refine ⟨by simp, by simp, by simp⟩
    · rw [h1] at hstatus ⊢
      norm_num at hstatus
      rw [hstatus]
      refine ⟨by simp, by simp, by simp⟩
    · have h0 : ¬ countOccurrences src pat = 0 := by omega
      have h1 : ¬ countOccurrences src pat = 1 := by omega
      rw [if_neg h0, if_neg h1] at hstatus
      rw [hstatus]
      refine ⟨by simp [h0], by simp [h1], by simp [h2]⟩

/-- Witness for C2: the status law applied at the concrete input
`src = "ab"`, `pat = "a"`, where the pattern occurs exactly once. -/
theorem c2_witness :
    ∃ r, checkPatchLiteral "ab".toList "a".toList none = some r ∧
      (r.status = PatchStatus.UNIQUE ↔ countOccurrences "ab".toList "a".toList = 1) := by
  cases hE : checkPatchLiteral "ab".toList "a".toList none with
  | none => exact absurd hE (by decide)
  | some r => exact ⟨r, rfl, (c2_patch_status_law "ab".toList "a".toList none r hE).2.1⟩

/-! ## Claim C9 -/

/-- C9: when literal-mode `checkPatch` finds exactly one match, the
non-code-context warning is in the returned warning list iff
`isOffsetInCode` — the fresh state machine driven from
`max(0, offset − 50000)` up to and including the match offset — ends in a
non-`Normal` state; when it ends in `Normal`, no such warning appears. -/
theorem c9_non_code_context_warning (src pat : List Char) (repl : Option (List Char))
    (r : PatchResult) (m : PatchMatch)
    (h : checkPatchLiteral src pat repl = some r) (hm : r.matchList = [m]) :
    (PatchWarning.nonCodeContext ∈ r.warnings ↔ isOffsetInCode src m.offset = false) := by
  rw [checkPatchLiteral] at h
  cases hL : literalLoop src pat (src.length + 2) 0 [] with
  | none => rw [hL] at h; simp at h
  | some ms =>
    rw [hL, Option.map_some'] at h
    replace h := Option.some.inj h
    subst h
    simp only at hm
    subst hm
    by_cases hio : isOffsetInCode src m.offset = true
    · simp only [hio, List.length_singleton, if_true, List.head?_cons]
      constructor
      · intro hmem
        exfalso
        simp only [List.filterMap_append, List.mem_append] at hmem
        rcases hmem with hmem | hmem
        · split_ifs at hmem <;> simp_all
        · simp at hmem
      · intro hfalse
        exact absurd hfalse (by simp)
    · have hio' : isOffsetInCode src m.offset = false := by
        simpa using hio
      simp only [hio', List.length_singleton, if_true, List.head?_cons]
      constructor
      · intro _; trivial
      · intro _
        simp only [List.filterMap_append, List.mem_append]
        right
        simp

/-- Witness for C9: the warning law applied at the concrete input
`src = "ab"`, `pat = "a"` (a unique in-code match, so no warning). -/
theorem c9_witness :
    ∃ r m, checkPatchLiteral "ab".toList "a".toList none = some r ∧
      r.matchList = [m] ∧
      (PatchWarning.nonCodeContext ∈ r.warnings ↔
        isOffsetInCode "ab".toList m.offset = false) := by
  cases hE : checkPatchLiteral "ab".toList "a".toList none with
  | none => exact absurd hE (by decide)
  | some r =>
    have hLen : r.matchList.length = 1 := by
      have hd : (Option.map (fun x => x.matchList.length)
          (checkPatchLiteral "ab".toList "a".toList none)) = some 1 := by decide
      rw [hE, Option.map_some'] at hd
      exact Option.some.inj hd
    cases hml : r.matchList with
    | nil => rw [hml] at hLen; simp at hLen
    | cons m rest =>
      have hrest : rest = [] := by
        rw [hml] at hLen
        simpa using hLen
      subst hrest
      exact ⟨r, m, rfl, hml, c9_non_code_context_warning _ _ _ r m hE hml⟩

/-! ## Beautifier (lib/beautify.mjs) -/

/-- JS `trim`/`trimStart` whitespace (the ASCII set plus NBSP and the BOM;
the inputs exercised here are ASCII). -/
def isJsTrimWS (c : Char) : Bool :=
  c = ' ' || c = '\t' || c = '\n' || c = '\r' || c = '\x0b' || c = '\x0c' ||
    c = ' ' || c = '﻿'

/-- `text.trimStart()`. -/
def jsTrimStart (l : List Char) : List Char := l.dropWhile isJsTrimWS

/-- `text.trimEnd()`. -/
def jsTrimEnd (l : List Char) : List Char := (l.reverse.dropWhile isJsTrimWS).reverse

/-- `text.trim()`. -/
def jsTrim (l : List Char) : List Char := jsTrimEnd (jsTrimStart l)

/-- The beautifier's mutable locals: the state machine, `indent`,
`lineStart`, `currentLine`, `prevNonWS`, `lineOrigOffset`, and the two
output accumulators `out` and `offsetMap`. -/
structure BState where
  sm : SM
  indent : ℕ
  lineStart : Bool
  currentLine : List Char
  prevNonWS : Option Char
  lineOrigOffset : ℕ
  out : List (List Char)
  offsetMap : List ℕ
deriving DecidableEq, Repr

/-- The initial beautifier state. -/
def beautifyInit : BState :=
  { sm := createStateMachine, indent := 0, lineStart := true, currentLine := [],
    prevNonWS := none, lineOrigOffset := 0, out := [], offsetMap := [] }

/-- Replace the `currentLine` of a beautifier state (explicit constructor,
used so proof goals stay first-order). -/
def withCurrentLine (st : BState) (x : List Char) : BState :=
  { sm := st.sm, indent := st.indent, lineStart := st.lineStart, currentLine := x,
    prevNonWS := st.prevNonWS, lineOrigOffset := st.lineOrigOffset,
    out := st.out, offsetMap := st.offsetMap }

/-- Replace the `indent` of a beautifier state. -/
def withIndent (st : BState) (n : ℕ) : BState :=
  { sm := st.sm, indent := n, lineStart := st.lineStart, currentLine := st.currentLine,
    prevNonWS := st.prevNonWS, lineOrigOffset := st.lineOrigOffset,
    out := st.out, offsetMap := st.offsetMap }

/-- `flushLine()`: emit the (indented, start-trimmed) current line and its
original offset when its trimmed text is non-empty; always reset the line. -/
def flushLine (st : BState) : BState :=
  if 0 < (jsTrim st.currentLine).length then
    { sm := st.sm, indent := st.indent, lineStart := true, currentLine := [],
      prevNonWS := st.prevNonWS, lineOrigOffset := st.lineOrigOffset,
      out := st.out ++ [List.replicate (2 * st.indent) ' ' ++ jsTrimStart st.currentLine],
      offsetMap := st.offsetMap ++ [st.lineOrigOffset] }
  else
    { sm := st.sm, indent := st.indent, lineStart := true, currentLine := [],
      prevNonWS := st.prevNonWS, lineOrigOffset := st.lineOrigOffset,
      out := st.out, offsetMap := st.offsetMap }

/-- The first half of a loop iteration: advance the state machine, update
`prevNonWS`, and latch `lineOrigOffset = i` when a new line starts. -/
def bAdv (i : ℕ) (ch : Char) (nextCh : Option Char) (st : BState) : BState :=
  if st.lineStart then
    { sm := advanceState st.sm (some ch) nextCh st.prevNonWS, indent := st.indent,
      lineStart := false, currentLine := st.currentLine,
      prevNonWS := if isTrackedWS ch then st.prevNonWS else some ch,
      lineOrigOffset := i, out := st.out, offsetMap := st.offsetMap }
  else
    { sm := advanceState st.sm (some ch) nextCh st.prevNonWS, indent := st.indent,
      lineStart := st.lineStart, currentLine := st.currentLine,
      prevNonWS := if isTrackedWS ch then st.prevNonWS else some ch,
      lineOrigOffset := st.lineOrigOffset, out := st.out, offsetMap := st.offsetMap }

/-- `currentLine.push(ch)` after the bookkeeping of `bAdv`. -/
def bPush (i : ℕ) (ch : Char) (nextCh : Option Char) (st : BState) : BState :=
  withCurrentLine (bAdv i ch nextCh st) ((bAdv i ch nextCh st).currentLine ++ [ch])

/-- The `}` branch of the loop body: pop the brace from the line, flush,
dedent (clamped at 0), emit `}` on a line of its own. -/
def bCloseStep (s3 : BState) : BState :=
  flushLine
    (withCurrentLine
      (withIndent (flushLine (withCurrentLine s3 s3.currentLine.dropLast))
        ((flushLine (withCurrentLine s3 s3.currentLine.dropLast)).indent - 1))
      ((flushLine (withCurrentLine s3 s3.currentLine.dropLast)).currentLine ++ ['\x7d']))

/-- One full iteration of the beautifier loop at index `i`. -/
def bStep (i : ℕ) (ch : Char) (nextCh : Option Char) (st : BState) : BState :=
  if ch = '\n' then flushLine (bAdv i ch nextCh st)
  else if !(isInCode (bPush i ch nextCh st).sm.state) then bPush i ch nextCh st
  else if ch = '\x7b' then
    flushLine (withIndent (bPush i ch nextCh st) ((bPush i ch nextCh st).indent + 1))
  else if ch = '\x7d' then bCloseStep (bPush i ch nextCh st)
  else if ch = ';' then flushLine (bPush i ch nextCh st)
  else bPush i ch nextCh st

/-- The beautifier loop over the remaining characters (`i` is the index of
the head; the successor character is the head of the tail). -/
def bGo : ℕ → List Char → BState → BState
  | _, [], st => st
  | i, c :: rest, st => bGo (i + 1) rest (bStep i c rest.head? st)

/-- The `(text, offsetMap)` result of `beautify`. -/
structure BOut where
  text : List Char
  offsetMap : List ℕ
deriving DecidableEq, Repr

/-- `beautify(src)`: run the loop, flush a trailing line, join with
newlines. -/
def beautify (src : List Char) : BOut :=
  let st := bGo 0 src beautifyInit
  let st2 := if 0 < st.currentLine.length then flushLine st else st
  { text := List.intercalate ['\n'] st2.out, offsetMap := st2.offsetMap }

/-! ## Claim C5 -/

set_option maxRecDepth 8000 in
/-- C5: `beautify("a=1;b=2;c=3")` produces exactly the lines
`a=1;` / `b=2;` / `c=3` joined by newlines, and the offset map `[0, 4, 8]`
of original byte offsets of the starts of the beautified lines. -/
theorem c5_beautify_reference_scenario :
    beautify "a=1;b=2;c=3".toList
      = { text := "a=1;\nb=2;\nc=3".toList, offsetMap := [0, 4, 8] } := by
  decide

/-! ### Offset-map well-formedness (Claim C10) -/

/-- Loop invariant of the beautifier after processing `i` characters of a
buffer of length `len`. -/
structure BInv (len i : ℕ) (st : BState) : Prop where
  chain : List.Chain' (· ≤ ·) st.offsetMap
  le_lo : ∀ e ∈ st.offsetMap, e ≤ st.lineOrigOffset
  lt_len : ∀ e ∈ st.offsetMap, e < len
  lo_le : st.lineOrigOffset ≤ i
  ctx : st.lineOrigOffset < len ∨
    (st.lineStart = true ∧ st.currentLine = [] ∧ st.offsetMap = [])

lemma chain_append_le {l : List ℕ} {x : ℕ}
    (hc : List.Chain' (· ≤ ·) l) (hall : ∀ e ∈ l, e ≤ x) :
    List.Chain' (· ≤ ·) (l ++ [x]) := by
  induction l with
  | nil => simp
  | cons a t ih =>
    cases t with
    | nil =>
      simp only [List.cons_append, List.nil_append, List.chain'_cons, List.chain'_singleton,
        and_true]
      exact hall a (by simp)
    | cons b u =>
      simp only [List.cons_append] at *
      rw [List.chain'_cons] at hc ⊢
      refine ⟨hc.1, ?_⟩
      have hres := ih hc.2 (fun e he => hall e (by simp at he ⊢; tauto))
      simpa using hres

lemma jsTrim_nil : jsTrim ([] : List Char) = [] := rfl

lemma flushLine_inv {len i : ℕ} {st : BState} (h : BInv len i st) :
    BInv len i (flushLine st) := by
  rw [flushLine]
  by_cases hc : 0 < (jsTrim st.currentLine).length
  · have hcl : st.currentLine ≠ [] := by
      intro hnil
      rw [hnil, jsTrim_nil] at hc
      simp at hc
    have hlo : st.lineOrigOffset < len := by
      rcases h.ctx with h1 | ⟨_, h2, _⟩
      · exact h1
      · exact absurd h2 hcl
    rw [if_pos hc]
    refine ⟨?_, ?_, ?_, ?_, ?_⟩
    · dsimp only
      exact chain_append_le h.chain h.le_lo
    · dsimp only
      intro e he
      rcases List.mem_append.mp he with he | he
      · exact h.le_lo e he
      · simp at he
        omega
    · dsimp only
      intro e he
      rcases List.mem_append.mp he with he | he
      · exact h.lt_len e he
      · simp at he
        omega
    · dsimp only
      exact h.lo_le
    · dsimp only
      exact Or.inl hlo
  · rw [if_neg hc]
    refine ⟨?_, ?_, ?_, ?_, ?_⟩
    · dsimp only
      exact h.chain
    · dsimp only
      exact h.le_lo
    · dsimp only
      exact h.lt_len
    · dsimp only
      exact h.lo_le
    · dsimp only
      rcases h.ctx with h1 | ⟨_, _, h3⟩
      · exact Or.inl h1
      · exact Or.inr ⟨rfl, rfl, h3⟩

lemma bAdv_inv {len i : ℕ} {ch : Char} {nextCh : Option Char} {st : BState}
    (hi : i < len) (h : BInv len i st) :
    BInv len (i + 1) (bAdv i ch nextCh st) ∧
      (bAdv i ch nextCh st).lineOrigOffset < len ∧
      (bAdv i ch nextCh st).offsetMap = st.offsetMap ∧
      (bAdv i ch nextCh st).currentLine = st.currentLine ∧
      (bAdv i ch nextCh st).indent = st.indent ∧
      (bAdv i ch nextCh st).out = st.out := by
  rw [bAdv]
  by_cases hls : st.lineStart = true
  · simp only [hls, if_true]
    refine ⟨⟨?_, ?_, ?_, ?_, ?_⟩, hi, by trivial, by trivial, by trivial, by trivial⟩
    · dsimp only
      exact h.chain
    · dsimp only
      intro e he
      have h1 := h.le_lo e he
      have h2 := h.lo_le
      omega
    · dsimp only
      exact h.lt_len
    · dsimp only
      omega
    · dsimp only
      exact Or.inl hi
  · have hls' : st.lineStart = false := by
      simpa using hls
    simp only [hls', Bool.false_eq_true, if_false]
    have hlo : st.lineOrigOffset < len := by
      rcases h.ctx with h1 | ⟨h2, _, _⟩
      · exact h1
      · rw [hls'] at h2
        simp at h2
    refine ⟨⟨?_, ?_, ?_, ?_, ?_⟩, hlo, by trivial, by trivial, by trivial, by trivial⟩
    · dsimp only
      exact h.chain
    · dsimp only
      exact h.le_lo
    · dsimp only
      exact h.lt_len
    · dsimp only
      have := h.lo_le
      omega
    · dsimp only
      exact Or.inl hlo

lemma BInv_currentLine {len i : ℕ} {st : BState} (h : BInv len i st)
    (hlo : st.lineOrigOffset < len) (x : List Char) :
    BInv len i (withCurrentLine st x) :=
  ⟨h.chain, h.le_lo, h.lt_len, h.lo_le, Or.inl hlo⟩

lemma BInv_indent {len i : ℕ} {st : BState} (h : BInv len i st) (n : ℕ) :
    BInv len i (withIndent st n) := by
  refine ⟨h.chain, h.le_lo, h.lt_len, h.lo_le, ?_⟩
  rcases h.ctx with h1 | ⟨h2, h3, h4⟩
  · exact Or.inl h1
  · exact Or.inr ⟨h2, h3, h4⟩

lemma flushLine_lineOrigOffset (st : BState) :
    (flushLine st).lineOrigOffset = st.lineOrigOffset := by
  rw [flushLine]
  split_ifs <;> rfl

lemma bCloseStep_inv {len i : ℕ} {s3 : BState} (h3 : BInv len i s3)
    (hlo : s3.lineOrigOffset < len) : BInv len i (bCloseStep s3) := by
  rw [bCloseStep]
  have h4 := flushLine_inv (BInv_currentLine h3 hlo s3.currentLine.dropLast)
  have hlo5 : (withIndent (flushLine (withCurrentLine s3 s3.currentLine.dropLast))
      ((flushLine (withCurrentLine s3 s3.currentLine.dropLast)).indent - 1)).lineOrigOffset
      < len := by
    show (flushLine (withCurrentLine s3 s3.currentLine.dropLast)).lineOrigOffset < len
    rw [flushLine_lineOrigOffset]
    exact hlo
  exact flushLine_inv (BInv_currentLine (BInv_indent h4 _) hlo5 _)

lemma bStep_inv {len i : ℕ} {ch : Char} {nextCh : Option Char} {st : BState}
    (hi : i < len) (h : BInv len i st) :
    BInv len (i + 1) (bStep i ch nextCh st) := by
  obtain ⟨h2, hlo2, -, -, -, -⟩ := @bAdv_inv len i ch nextCh st hi h
  have h3 : BInv len (i + 1) (bPush i ch nextCh st) :=
    BInv_currentLine h2 hlo2 ((bAdv i ch nextCh st).currentLine ++ [ch])
  have hlo3 : (bPush i ch nextCh st).lineOrigOffset < len := hlo2
  rw [bStep]
  by_cases hnl : ch = '\n'
  · rw [if_pos hnl]
    exact flushLine_inv h2
  · rw [if_neg hnl]
    by_cases hcode : (!(isInCode (bPush i ch nextCh st).sm.state)) = true
    · rw [if_pos hcode]
      exact h3
    · rw [if_neg hcode]
      by_cases hob : ch = '\x7b'
      · rw [if_pos hob]
        exact flushLine_inv (BInv_indent h3 _)
      · rw [if_neg hob]
        by_cases hcb : ch = '\x7d'
        · rw [if_pos hcb]
          exact bCloseStep_inv h3 hlo3
        · rw [if_neg hcb]
          by_cases hsc : ch = ';'
          · rw [if_pos hsc]
            exact flushLine_inv h3
          · rw [if_neg hsc]
            exact h3

lemma bGo_inv {len : ℕ} :
    ∀ (rest : List Char) (i : ℕ) (st : BState), i + rest.length = len →
      BInv len i st → BInv len len (bGo i rest st) := by
  intro rest
  induction rest with
  | nil =>
    intro i st hlen h
    rw [bGo]
    have : i = len := by simpa using hlen
    exact this ▸ h
  | cons c cs ih =>
    intro i st hlen h
    rw [bGo]
    have hi : i < len := by
      simp only [List.length_cons] at hlen
      omega
    exact ih (i + 1) _ (by simp only [List.length_cons] at hlen; omega) (bStep_inv hi h)

/-! ## Claim C10 -/

set_option maxRecDepth 4000 in
/-- C10: for every input, the `offsetMap` returned by `beautify` is
non-decreasing and every entry is a valid offset into the input
(`entry < length`); consecutive entries can be equal — witnessed by
`a{b}`, whose `}` line repeats the offset of the line flushed before it —
so strict monotonicity does not hold. -/
theorem c10_offset_map_well_formed :
    (∀ src : List Char,
      List.Chain' (· ≤ ·) (beautify src).offsetMap ∧
        ∀ e ∈ (beautify src).offsetMap, e < src.length) ∧
    (beautify "a\x7bb\x7d".toList).offsetMap = [0, 2, 2] := by
  constructor
  · intro src
    have h0 : BInv src.length 0 beautifyInit :=
      ⟨by simp [beautifyInit], by simp [beautifyInit], by simp [beautifyInit],
        by simp [beautifyInit], Or.inr (by simp [beautifyInit])⟩
    have h := bGo_inv src 0 beautifyInit (by simp) h0
    rw [beautify]
    by_cases hc : 0 < (bGo 0 src beautifyInit).currentLine.length
    · rw [if_pos hc]
      have h2 := flushLine_inv h
      exact ⟨h2.chain, h2.lt_len⟩
    · rw [if_neg hc]
      exact ⟨h.chain, h.lt_len⟩
  · decide

/-! ## Function map cross-version diff (lib/diff-fns.mjs)

Entries of a function map (`buildFunctionMap` output).  JS numbers are
modelled as `ℤ` (shifts are signed); similarity scores are exact rationals
(the source divides IEEE doubles; the identity law proved below holds for
every fingerprint function, so this modelling choice carries no weight). -/

/-- One `FunctionEntry` of a map (`stop` is the source's `end` field). -/
structure FunctionEntry where
  name : String
  start : ℤ
  stop : ℤ
  paramCount : ℤ
  isAsync : Bool
  isGenerator : Bool
  strings : Option (List String)
deriving DecidableEq, Repr

/-- `Math.round` on an exact rational: half rounds up. -/
def jsRound (q : ℚ) : ℤ := ⌊q + 1 / 2⌋

/-- `sizeBin(size)`: quantize the size to the nearest 10%. -/
def sizeBin (size : ℤ) : ℤ :=
  jsRound ((size : ℚ) / max 1 (jsRound ((size : ℚ) * (1 / 10))))

/-- `fingerprint(fn)`: the `paramCount:async:generator:sizeBin:strings`
string. -/
def fingerprint (fn : FunctionEntry) : String :=
  String.intercalate ":"
    [toString fn.paramCount,
     if fn.isAsync then "A" else "",
     if fn.isGenerator then "G" else "",
     toString (sizeBin (fn.stop - fn.start)),
     match fn.strings with
     | some l => String.intercalate "|" l
     | none => ""]

/-- One entry of the `unchanged` list. -/
structure UnchangedEntry where
  name : String
  v1Start : ℤ
  v1End : ℤ
  v2Start : ℤ
  v2End : ℤ
  shift : ℤ
deriving DecidableEq, Repr

/-- One entry of the `modified` list. -/
structure ModifiedEntry where
  name : String
  v1Start : ℤ
  v1End : ℤ
  v1Size : ℤ
  v2Start : ℤ
  v2End : ℤ
  v2Size : ℤ
  shift : ℤ
  sizeDiff : ℤ
  addedStrings : List String
  removedStrings : List String
  similarity : ℚ
deriving DecidableEq, Repr

/-- One entry of the `added`/`removed` lists (size is `end - start`). -/
structure AddedRemovedEntry where
  name : String
  start : ℤ
  stop : ℤ
  size : ℤ
  strings : List String
deriving DecidableEq, Repr

/-- The four-list result of `diffFunctions`. -/
structure DiffResult where
  unchanged : List UnchangedEntry
  modified : List ModifiedEntry
  added : List AddedRemovedEntry
  removed : List AddedRemovedEntry
deriving DecidableEq, Repr

/-- The `unchanged` record pushed in pass 1 for `fn1` matched to `fn2`. -/
def mkUnchanged (fn1 fn2 : FunctionEntry) : UnchangedEntry :=
  { name := fn1.name, v1Start := fn1.start, v1End := fn1.stop,
    v2Start := fn2.start, v2End := fn2.stop, shift := fn2.start - fn1.start }

/-- The `added`/`removed` record for a leftover function. -/
def mkAddedRemoved (fn : FunctionEntry) : AddedRemovedEntry :=
  { name := fn.name, start := fn.start, stop := fn.stop, size := fn.stop - fn.start,
    strings := fn.strings.getD [] }

/-- Pass-1 best-candidate selection: among same-fingerprint entries of
map 2 (index order), skip claimed indices and keep the first strictly
closest `start` (`dist < bestDist`). -/
def pickBestStep (fn1 : FunctionEntry) (matched2 : List ℕ)
    (best : Option ((ℕ × FunctionEntry) × ℤ)) (c : ℕ × FunctionEntry) :
    Option ((ℕ × FunctionEntry) × ℤ) :=
  if c.1 ∈ matched2 then best
  else
    match best with
    | none => some (c, |c.2.start - fn1.start|)
    | some (b, bd) =>
      if |c.2.start - fn1.start| < bd then some (c, |c.2.start - fn1.start|)
      else some (b, bd)

/-- The claim-selection fold of pass 1 (`bestDist` starts at infinity, so
the first unclaimed candidate always loads). -/
def pickBest (fn1 : FunctionEntry) (matched2 : List ℕ)
    (cands : List (ℕ × FunctionEntry)) : Option ((ℕ × FunctionEntry) × ℤ) :=
  cands.foldl (pickBestStep fn1 matched2) none

/-- Pass 1 (exact-fingerprint matching): walk map 1 in order, claiming the
closest unclaimed same-fingerprint entry of map 2.  Returns the
`unchanged` list, the claimed map-2 indices, and the still-unmatched
map-1 entries in order. -/
def pass1 (fp : FunctionEntry → String) (m2 : List FunctionEntry) :
    List FunctionEntry → List UnchangedEntry → List ℕ → List FunctionEntry →
      List UnchangedEntry × List ℕ × List FunctionEntry
  | [], unchanged, matched2, unmatched1 => (unchanged, matched2, unmatched1)
  | fn1 :: rest, unchanged, matched2, unmatched1 =>
    match pickBest fn1 matched2 ((m2.enum).filter fun p => fp p.2 = fp fn1) with
    | some (b, _) =>
      pass1 fp m2 rest (unchanged ++ [mkUnchanged fn1 b.2]) (matched2 ++ [b.1]) unmatched1
    | none => pass1 fp m2 rest unchanged matched2 (unmatched1 ++ [fn1])

/-- Jaccard similarity of the string sets, as in the source:
`|fn1.strings ∩ s2| / |set(s1 ∪ s2)|` (the numerator counts list entries). -/
def jaccard (s1 s2 : List String) : ℚ :=
  ((s1.filter fun s => s ∈ s2).length : ℚ) / ((dedupKeepFirst (s1 ++ s2)).length : ℚ)

/-- Pass-2 fuzzy-candidate selection over the unclaimed map-2 entries:
same `paramCount`, non-empty strings, Jaccard above `0.5` and above the
best so far. -/
def pickFuzzy (fn1 : FunctionEntry) (um2 : List (ℕ × FunctionEntry)) :
    Option ((ℕ × FunctionEntry) × ℚ) :=
  um2.foldl
    (fun best c =>
      if c.2.paramCount ≠ fn1.paramCount then best
      else if c.2.strings.getD [] = [] then best
      else
        let j := jaccard (fn1.strings.getD []) (c.2.strings.getD [])
        match best with
        | none => if j > 1 / 2 ∧ j > 0 then some (c, j) else best
        | some (_, bs) => if j > 1 / 2 ∧ j > bs then some (c, j) else best)
    none

/-- The `modified` record pushed in pass 2. -/
def mkModified (fn1 fn2 : FunctionEntry) (score : ℚ) : ModifiedEntry :=
  { name := fn1.name, v1Start := fn1.start, v1End := fn1.stop,
    v1Size := fn1.stop - fn1.start, v2Start := fn2.start, v2End := fn2.stop,
    v2Size := fn2.stop - fn2.start, shift := fn2.start - fn1.start,
    sizeDiff := (fn2.stop - fn2.start) - (fn1.stop - fn1.start),
    addedStrings := (fn2.strings.getD []).filter fun s => ¬ s ∈ fn1.strings.getD [],
    removedStrings := (fn1.strings.getD []).filter fun s => ¬ s ∈ fn2.strings.getD [],
    similarity := score }

/-- Pass 2 (fuzzy matching by string overlap) over the pass-1 leftovers.
Returns the `modified` list, the remaining unclaimed map-2 entries, the
final claimed index list, and the map-1 entries left for `removed`. -/
def pass2 :
    List FunctionEntry → List (ℕ × FunctionEntry) → List ℕ → List ModifiedEntry →
      List FunctionEntry →
      List ModifiedEntry × List (ℕ × FunctionEntry) × List ℕ × List FunctionEntry
  | [], um2, matched2, modified, leftover1 => (modified, um2, matched2, leftover1)
  | fn1 :: rest, um2, matched2, modified, leftover1 =>
    if fn1.strings.getD [] = [] then
      pass2 rest um2 matched2 modified (leftover1 ++ [fn1])
    else
      match pickFuzzy fn1 um2 with
      | some (b, score) =>
        pass2 rest (um2.filter fun p => p.1 ≠ b.1) (matched2 ++ [b.1])
          (modified ++ [mkModified fn1 b.2 score]) leftover1
      | none => pass2 rest um2 matched2 modified (leftover1 ++ [fn1])

/-- `diffFunctions(map1, map2)` with an explicit fingerprint function. -/
def diffFunctionsWith (fp : FunctionEntry → String) (m1 m2 : List FunctionEntry) :
    DiffResult :=
  match pass1 fp m2 m1 [] [] [] with
  | (unchanged, matched2, unmatched1) =>
    match pass2 unmatched1 ((m2.enum).filter fun p => ¬ p.1 ∈ matched2) matched2 [] [] with
    | (modified, um2, matched2F, leftover1) =>
      { unchanged := unchanged, modified := modified,
        added := ((um2.filter fun p => ¬ p.1 ∈ matched2F).map fun p => mkAddedRemoved p.2),
        removed := leftover1.map mkAddedRemoved }

/-- `diffFunctions(map1, map2)` as shipped (concrete fingerprint). -/
def diffFunctions (m1 m2 : List FunctionEntry) : DiffResult :=
  diffFunctionsWith fingerprint m1 m2

/-! ### The diff identity law -/

lemma foldl_pickBestStep_skip {fn1 : FunctionEntry} {matched2 : List ℕ} :
    ∀ (A : List (ℕ × FunctionEntry)) (b : Option ((ℕ × FunctionEntry) × ℤ)),
      (∀ p ∈ A, p.1 ∈ matched2) → A.foldl (pickBestStep fn1 matched2) b = b := by
  intro A
  induction A with
  | nil => intro b _; rfl
  | cons p A ih =>
    intro b hall
    rw [List.foldl_cons]
    rw [show pickBestStep fn1 matched2 b p = b from by
      rw [pickBestStep.eq_def, if_pos (hall p (by simp))]]
    exact ih b fun q hq => hall q (by simp [hq])

lemma foldl_pickBestStep_zero {fn1 : FunctionEntry} {matched2 : List ℕ} :
    ∀ (B : List (ℕ × FunctionEntry)) (c : (ℕ × FunctionEntry)),
      B.foldl (pickBestStep fn1 matched2) (some (c, 0)) = some (c, 0) := by
  intro B
  induction B with
  | nil => intro c; rfl
  | cons p B ih =>
    intro c
    rw [List.foldl_cons]
    rw [show pickBestStep fn1 matched2 (some (c, 0)) p = some (c, 0) from by
      rw [pickBestStep.eq_def]
      dsimp only
      split_ifs with h1 h2
      · rfl
      · exact absurd h2 (not_lt.mpr (abs_nonneg _))
      · rfl]
    exact ih c

lemma mem_enum_fst_lt {α : Type} {l : List α} {p : ℕ × α} (hp : p ∈ l.enum) :
    p.1 < l.length := by
  rw [List.mem_enum_iff_getElem?] at hp
  exact (List.getElem?_eq_some.mp hp).1

lemma pickBest_self (fp : FunctionEntry → String) (m : List FunctionEntry) (k : ℕ)
    (e : FunctionEntry) (rest : List FunctionEntry) (hdrop : m.drop k = e :: rest) :
    pickBest e (List.range k) ((m.enum).filter fun p => fp p.2 = fp e)
      = some ((k, e), 0) := by
  have hklen : k < m.length := by
    by_contra hge
    rw [List.drop_eq_nil_of_le (by omega)] at hdrop
    exact absurd hdrop (by simp)
  have hm : m = m.take k ++ e :: rest := by
    conv_lhs => rw [← List.take_append_drop k m]
    rw [hdrop]
  have hlen : (m.take k).length = k := by
    rw [List.length_take]
    omega
  rw [pickBest]
  conv_lhs => rw [hm]
  rw [List.enum_append, hlen]
  rw [show List.enumFrom k (e :: rest) = (k, e) :: List.enumFrom (k + 1) rest from rfl]
  rw [List.filter_append, List.filter_cons_of_pos (by simp)]
  rw [List.foldl_append]
  rw [foldl_pickBestStep_skip _ none]
  · rw [List.foldl_cons]
    rw [show pickBestStep e (List.range k) none (k, e) = some ((k, e), 0) from by
      rw [pickBestStep.eq_def]
      dsimp only
      rw [if_neg (by simp)]
      simp]
    exact foldl_pickBestStep_zero _ _
  · intro p hp
    have hp' := List.mem_of_mem_filter hp
    have := mem_enum_fst_lt hp'
    rw [hlen] at this
    exact List.mem_range.mpr this

lemma pass1_self_aux (fp : FunctionEntry → String) (m : List FunctionEntry) :
    ∀ (rest : List FunctionEntry) (k : ℕ) (unchanged : List UnchangedEntry)
      (unmatched1 : List FunctionEntry), m.drop k = rest →
      pass1 fp m rest unchanged (List.range k) unmatched1
        = (unchanged ++ rest.map (fun e => mkUnchanged e e),
           List.range (k + rest.length), unmatched1) := by
  intro rest
  induction rest with
  | nil =>
    intro k u um _
    rw [pass1]
    simp
  | cons e rest ih =>
    intro k u um hdrop
    rw [pass1, pickBest_self fp m k e rest hdrop]
    have hdrop' : m.drop (k + 1) = rest := by
      rw [← List.drop_drop 1 k m, hdrop]
      rfl
    dsimp only
    rw [← List.range_succ]
    rw [ih (k + 1) _ _ hdrop']
    simp only [List.map_cons, List.length_cons, List.append_assoc, List.singleton_append]
    rw [show k + 1 + rest.length = k + (rest.length + 1) from by omega]

lemma pass1_self (fp : FunctionEntry → String) (m : List FunctionEntry) :
    pass1 fp m m [] [] []
      = (m.map (fun e => mkUnchanged e e), List.range m.length, []) := by
  have h := pass1_self_aux fp m m 0 [] [] (by simp)
  simpa using h

/-! ## Claim C4 -/

/-- C4: diffing any function map against itself yields an `unchanged` list
with exactly one entry per entry of the map, each with `shift = 0`, and
empty `modified`, `added` and `removed` lists.  (Proved for the shipped
fingerprint via `diffFunctionsWith`, which holds for every fingerprint
function.) -/
theorem c4_diff_identity (m : List FunctionEntry) :
    diffFunctions m m =
      { unchanged := m.map fun e =>
          { name := e.name, v1Start := e.start, v1End := e.stop,
            v2Start := e.start, v2End := e.stop, shift := 0 },
        modified := [], added := [], removed := [] } := by
  rw [diffFunctions, diffFunctionsWith, pass1_self fingerprint m]
  dsimp only
  have hum : ((m.enum).filter fun p => ¬ p.1 ∈ List.range m.length) = [] := by
    rw [List.filter_eq_nil]
    intro p hp
    simp only [decide_not, Bool.not_eq_true', decide_eq_false_iff_not, not_not]
    exact List.mem_range.mpr (mem_enum_fst_lt hp)
  rw [hum]
  rw [show pass2 [] [] (List.range m.length) [] []
    = ([], [], List.range m.length, []) from rfl]
  dsimp only
  simp only [List.filter_nil, List.map_nil]
  congr 1
  apply List.map_congr_left
  intro e _
  rw [mkUnchanged]
  simp

/-! ## Scope tree lookup (lib/scope.mjs, `buildScopeTree`/`findScopeAt`)

A scope is an arena node; the source's cyclic `parent` object reference is
an arena index here (the spec's design note prescribes exactly this).
`buildScopeTree` seeds the arena with the module scope
`{ type: 'module', start: 0, end: srcLength }` at position 0 and only ever
appends, so every tree it builds is `moduleScope len :: rest`; the lookup
theorem below is proved for every such arena. -/

/-- One scope-arena node (`stop` is the source's `end`; bindings are
`(name, kind, offset)` triples). -/
structure ScopeNode where
  type : String
  start : ℤ
  stop : ℤ
  vars : List (String × String × ℤ)
  parent : Option ℕ
deriving DecidableEq, Repr

/-- The module scope that `buildScopeTree` pushes first. -/
def moduleScope (srcLength : ℤ) : ScopeNode :=
  { type := "module", start := 0, stop := srcLength, vars := [], parent := none }

/-- One comparison step of `findScopeAt`'s loop. -/
def findScopeStep (offset : ℤ) (target scope : ScopeNode) : ScopeNode :=
  if offset ≥ scope.start ∧ offset ≤ scope.stop ∧
      scope.stop - scope.start < target.stop - target.start
  then scope else target

/-- `findScopeAt(offset)`: start from `scopes[0]` and keep any containing
scope with a strictly smaller range. -/
def findScopeAt (scopes : List ScopeNode) (offset : ℤ) : Option ScopeNode :=
  match scopes with
  | [] => none
  | s0 :: _ => some (scopes.foldl (findScopeStep offset) s0)

lemma findScope_fold_result (offset : ℤ) :
    ∀ (l : List ScopeNode) (t : ScopeNode),
      ((l.foldl (findScopeStep offset) t = t ∨
        (l.foldl (findScopeStep offset) t ∈ l ∧
          (l.foldl (findScopeStep offset) t).start ≤ offset ∧
          offset ≤ (l.foldl (findScopeStep offset) t).stop)) ∧
       (l.foldl (findScopeStep offset) t).stop - (l.foldl (findScopeStep offset) t).start
         ≤ t.stop - t.start ∧
       (∀ s ∈ l, s.start ≤ offset → offset ≤ s.stop →
         (l.foldl (findScopeStep offset) t).stop - (l.foldl (findScopeStep offset) t).start
           ≤ s.stop - s.start)) := by
  intro l
  induction l with
  | nil => intro t; exact ⟨Or.inl rfl, le_refl _, by simp⟩
  | cons s l ih =>
    intro t
    rw [List.foldl_cons]
    obtain ⟨h1, h2, h3⟩ := ih (findScopeStep offset t s)
    rw [findScopeStep] at *
    by_cases hc : offset ≥ s.start ∧ offset ≤ s.stop ∧
        s.stop - s.start < t.stop - t.start
    · rw [if_pos hc] at h1 h2 h3 ⊢
      refine ⟨?_, by omega, ?_⟩
      · rcases h1 with h1 | ⟨hmem, hcont⟩
        · exact Or.inr ⟨by rw [h1]; simp, by rw [h1]; exact ⟨hc.1, hc.2.1⟩⟩
        · exact Or.inr ⟨by simp [hmem], hcont⟩
      · intro q hq hq1 hq2
        rcases List.mem_cons.mp hq with hq | hq
        · subst hq; omega
        · exact h3 q hq hq1 hq2
    · rw [if_neg hc] at h1 h2 h3 ⊢
      refine ⟨?_, h2, ?_⟩
      · rcases h1 with h1 | ⟨hmem, hcont⟩
        · exact Or.inl h1
        · exact Or.inr ⟨by simp [hmem], hcont⟩
      · intro q hq hq1 hq2
        rcases List.mem_cons.mp hq with hq | hq
        · subst hq
          have : ¬ q.stop - q.start < t.stop - t.start := fun hlt =>
            hc ⟨hq1, hq2, hlt⟩
          omega
        · exact h3 q hq hq1 hq2

lemma findScope_fold_noop (offset : ℤ) :
    ∀ (l : List ScopeNode) (t : ScopeNode),
      (∀ s ∈ l, ¬ (offset ≥ s.start ∧ offset ≤ s.stop ∧
        s.stop - s.start < t.stop - t.start)) →
      l.foldl (findScopeStep offset) t = t := by
  intro l
  induction l with
  | nil => intro t _; rfl
  | cons s l ih =>
    intro t hall
    rw [List.foldl_cons, findScopeStep, if_neg (hall s (by simp))]
    exact ih t fun q hq => hall q (by simp [hq])

/-! ## Claim C6 -/

/-- C6: for every scope arena of the shape `buildScopeTree` produces
(module scope `[0, srcLength]` first) and every offset inside the buffer,
`findScopeAt` returns a scope containing the offset whose range length is
minimal among all scopes containing it; and whenever no non-module scope
contains the offset, the module scope is returned. -/
theorem c6_scope_lookup_minimality (srcLength : ℤ) (rest : List ScopeNode)
    (offset : ℤ) (r : ScopeNode)
    (hr : findScopeAt (moduleScope srcLength :: rest) offset = some r) :
    ((0 ≤ offset ∧ offset ≤ srcLength) →
      (r.start ≤ offset ∧ offset ≤ r.stop) ∧
        ∀ s ∈ moduleScope srcLength :: rest, s.start ≤ offset → offset ≤ s.stop →
          r.stop - r.start ≤ s.stop - s.start) ∧
    ((∀ s ∈ rest, ¬ (s.start ≤ offset ∧ offset ≤ s.stop)) →
      r = moduleScope srcLength) := by
  rw [findScopeAt] at hr
  replace hr := Option.some.inj hr
  constructor
  · intro hin
    obtain ⟨h1, -, h3⟩ :=
      findScope_fold_result offset (moduleScope srcLength :: rest) (moduleScope srcLength)
    rw [hr] at h1 h3
    refine ⟨?_, h3⟩
    rcases h1 with h1 | ⟨-, hcont⟩
    · rw [h1]
      exact ⟨hin.1, hin.2⟩
    · exact hcont
  · intro hnone
    rw [← hr]
    apply findScope_fold_noop
    intro s hs
    rcases List.mem_cons.mp hs with hs | hs
    · subst hs
      rintro ⟨-, -, hlt⟩
      omega
    · rintro ⟨hc1, hc2, -⟩
      exact hnone s hs ⟨hc1, hc2⟩

/-- Witness for C6: a concrete arena — module `[0,10]` plus a function
scope `[2,5]` — queried at offset 3 returns a containing, minimal scope. -/
theorem c6_witness :
    ∃ r, findScopeAt
        [moduleScope 10,
         { type := "function", start := 2, stop := 5, vars := [], parent := some 0 }] 3
        = some r ∧
      (r.start ≤ 3 ∧ 3 ≤ r.stop) ∧
      ∀ s ∈ [moduleScope 10,
        ({ type := "function", start := 2, stop := 5, vars := [], parent := some 0 }
          : ScopeNode)], s.start ≤ 3 → 3 ≤ s.stop →
        r.stop - r.start ≤ s.stop - s.start := by
  cases hE : findScopeAt
      [moduleScope 10,
       { type := "function", start := 2, stop := 5, vars := [], parent := some 0 }] 3 with
  | none => exact absurd hE (by decide)
  | some r =>
    exact ⟨r, rfl,
      (c6_scope_lookup_minimality 10
        [{ type := "function", start := 2, stop := 5, vars := [], parent := some 0 }]
        3 r hE).1 (by norm_num)⟩

/-! ## Function-boundary scanner (lib/extract-fn.mjs) -/

/-- JS `\s` for the regexes of `findFunctionStart` (same character set as
the trim helpers for the ASCII inputs exercised here). -/
def isJsSpace (c : Char) : Bool := isJsTrimWS c

/-- `[\w$]` — word character or dollar. -/
def isWordDollarChar (c : Char) : Bool := isWordChar c || c = '$'

/-- `hay.includes(needle)` / "contains" on character lists. -/
def containsSub (hay needle : List Char) : Bool :=
  decide (0 ≤ jsIndexOf hay needle 0)

/-- `s.endsWith(pat)`. -/
def endsWithSub (s pat : List Char) : Bool :=
  decide (pat.length ≤ s.length) && prefixMatch pat (s.drop (s.length - pat.length))

/-- `s.lastIndexOf(pat)`: greatest occurrence position, `-1` if none. -/
def lastIndexOfSub (s pat : List Char) : ℤ :=
  match ((List.range (s.length + 1)).filter fun p => prefixMatch pat (s.drop p)).getLast? with
  | some p => (p : ℤ)
  | none => -1

/-- `preBuf.match(/async\s*$/)`: length of the matched text (leftmost
position whose `async` is followed only by whitespace to the end). -/
def asyncTailLen (pre : List Char) : Option ℕ :=
  ((List.range (pre.length + 1)).find? fun p =>
      prefixMatch "async".toList (pre.drop p) && (pre.drop (p + 5)).all isJsSpace).map
    fun p => pre.length - p

/-- `after.match(/^\s+([\w$]+)\s*\()/`: the captured identifier, if the
window starts with whitespace, an identifier, optional whitespace and an
opening parenthesis. -/
def methodShorthandName (after : List Char) : Option (List Char) :=
  let ws := after.takeWhile isJsSpace
  if ws.length = 0 then none
  else
    let rest1 := after.drop ws.length
    let nm := rest1.takeWhile isWordDollarChar
    if nm.length = 0 then none
    else
      match (rest1.drop nm.length).dropWhile isJsSpace with
      | '(' :: _ => some nm
      | _ => none

/-- The backwards whitespace skip before a `=>` with no pending signature
(`while (arrowStart >= 0 && ' \t\n\r'.includes(src[arrowStart])) arrowStart--`). -/
def backWsScan (src : List Char) : ℕ → ℤ → ℤ
  | 0, pos => pos
  | fuel + 1, pos =>
    if pos ≥ 0 ∧ (match src.get? pos.toNat with
        | some c => isTrackedWS c
        | none => false) = true then
      backWsScan src fuel (pos - 1)
    else pos

/-- The backwards balanced-parenthesis scan locating an arrow's parameter
list (`while (arrowStart >= 0 && depth > 0) {...; arrowStart--}`). -/
def arrowParenScan (src : List Char) : ℕ → ℤ → ℤ → ℤ
  | 0, pos, _ => pos
  | fuel + 1, pos, depth =>
    if pos ≥ 0 ∧ depth > 0 then
      arrowParenScan src fuel (pos - 1)
        (if src.get? pos.toNat = some '(' then
          (if src.get? pos.toNat = some ')' then depth + 1 else depth) - 1
         else if src.get? pos.toNat = some ')' then depth + 1 else depth)
    else pos

/-- The arrow branch of `findFunctionStart`: scan back over whitespace, a
balanced `( … )` if present, then pull in a preceding `async`. -/
def arrowStartCompute (src : List Char) (j : ℕ) : ℤ :=
  let a0 := backWsScan src (j + 1) ((j : ℤ) - 1)
  let a1 :=
    if a0 ≥ 0 ∧ src.get? a0.toNat = some ')' then
      arrowParenScan src (a0.toNat + 2) (a0 - 1) 1 + 1
    else a0
  let preBuf := jsTrimEnd (jsSubstring src (max 0 (a1 - 10)).toNat a1.toNat)
  if endsWithSub preBuf "async".toList then
    max 0 (a1 - 10) + lastIndexOfSub preBuf "async".toList
  else a1

/-- The `pendingFuncStart` update of one `findFunctionStart` iteration:
`function` keyword (with optional preceding `async`), `async` method
shorthand, and `=>` arrows. -/
def ffsPending (src : List Char) (j : ℕ) (pending : ℤ) : ℤ :=
  let p1 :=
    if src.get? j = some 'f' ∧ jsSubstring src j (j + 8) = "function".toList then
      match asyncTailLen (jsSubstring src (j - 10) j) with
      | some len => (j : ℤ) - (len : ℤ)
      | none => (j : ℤ)
    else pending
  let p2 :=
    if src.get? j = some 'a' ∧ jsSubstring src j (j + 5) = "async".toList ∧ 0 < j then
      match methodShorthandName (jsSubstring src (j + 5) (j + 100)) with
      | some nm => if nm = "function".toList then p1 else (j : ℤ)
      | none => p1
    else p1
  if src.get? j = some '=' ∧ src.get? (j + 1) = some '>' then
    if p2 < 0 then arrowStartCompute src j else p2
  else p2

/-- One entry of `funcStack`. -/
structure FFSEntry where
  sigStart : ℤ
  braceOffset : ℕ
deriving DecidableEq, Repr

/-- A candidate enclosing function (`bestFunc` shape; `stop` is the
source's `end`, `-1` for unterminated stack remainders). -/
structure FFSBest where
  sigStart : ℤ
  braceOffset : ℕ
  stop : ℤ
deriving DecidableEq, Repr

/-- The span `end - sigStart` the scanner minimises. -/
def ffsSpan (c : FFSBest) : ℤ := c.stop - c.sigStart

/-- The `bestFunc` update on popping a qualifying candidate
(`!bestFunc || span < bestSpan`). -/
def selMinStep (best : Option FFSBest) (c : FFSBest) : Option FFSBest :=
  match best with
  | none => some c
  | some b => if ffsSpan c < ffsSpan b then some c else some b

/-- The minimum-span selection over a candidate list, in pop order. -/
def selMin (l : List FFSBest) : Option FFSBest :=
  l.foldl selMinStep none

/-- The scanner state: driver state, `pendingFuncStart`, `funcStack`,
`bestFunc`, plus `cands` — a ghost accumulator recording every qualifying
popped candidate (not in the source; `best` is provably its span-minimum). -/
structure FFSState where
  run : SMRun
  pending : ℤ
  stack : List FFSEntry
  best : Option FFSBest
  cands : List FFSBest
deriving DecidableEq, Repr

/-- One iteration of the `findFunctionStart` scan at index `j`. -/
def ffsStep (src : List Char) (offset j : ℕ) (st : FFSState) : FFSState :=
  if ¬ isInCode (smStep src j st.run).sm.state then
    ⟨smStep src j st.run, st.pending, st.stack, st.best, st.cands⟩
  else if src.get? j = some '\x7b' then
    ⟨smStep src j st.run, -1,
     st.stack ++
       [⟨if ffsPending src j st.pending ≥ 0 then ffsPending src j st.pending else -1, j⟩],
     st.best, st.cands⟩
  else if src.get? j = some '\x7d' then
    match st.stack.getLast? with
    | some entry =>
      if entry.sigStart ≥ 0 ∧ (offset : ℤ) ≥ entry.sigStart ∧ (offset : ℤ) ≤ (j : ℤ) then
        ⟨smStep src j st.run, ffsPending src j st.pending, st.stack.dropLast,
         selMinStep st.best ⟨entry.sigStart, entry.braceOffset, (j : ℤ)⟩,
         st.cands ++ [⟨entry.sigStart, entry.braceOffset, (j : ℤ)⟩]⟩
      else
        ⟨smStep src j st.run, ffsPending src j st.pending, st.stack.dropLast,
         st.best, st.cands⟩
    | none =>
      ⟨smStep src j st.run, ffsPending src j st.pending, [], st.best, st.cands⟩
  else
    ⟨smStep src j st.run, ffsPending src j st.pending, st.stack, st.best, st.cands⟩

/-- The scan loop over indices `j, j+1, …` (`n` iterations). -/
def ffsGo (src : List Char) (offset : ℕ) : ℕ → ℕ → FFSState → FFSState
  | _, 0, st => st
  | j, n + 1, st => ffsGo src offset (j + 1) n (ffsStep src offset j st)

/-- The initial scanner state. -/
def ffsInit : FFSState := ⟨smInit, -1, [], none, []⟩

/-- The full forward scan of `findFunctionStart`
(`scanEnd = min(src.length, offset + 500000)`). -/
def ffsScan (src : List Char) (offset : ℕ) : FFSState :=
  ffsGo src offset 0 (min src.length (offset + 500000)) ffsInit

/-- The post-loop pass over the unterminated `funcStack` remainder
(opened but unclosed functions containing the offset). -/
def ffsFinal (offset : ℕ) (st : FFSState) : Option FFSBest :=
  st.stack.foldl
    (fun (best : Option FFSBest) (entry : FFSEntry) =>
      if entry.sigStart ≥ 0 ∧ (offset : ℤ) ≥ entry.sigStart then
        match best with
        | none => some (FFSBest.mk entry.sigStart entry.braceOffset (-1))
        | some b =>
          if entry.sigStart > b.sigStart then
            some (FFSBest.mk entry.sigStart entry.braceOffset (-1))
          else some b
      else best)
    st.best

/-- `findFunctionStart(src, offset)`. -/
def findFunctionStart (src : List Char) (offset : ℕ) : ℤ :=
  match ffsFinal offset (ffsScan src offset) with
  | some b => b.sigStart
  | none => -1

/-- `findMatchingParen`'s forward scan. -/
def fmpGo (s : List Char) : ℕ → ℕ → ℤ → ℤ
  | _, 0, _ => -1
  | i, fuel + 1, depth =>
    if s.get? i = some ')' then
      if (if s.get? i = some '(' then depth + 1 else depth) - 1 = 0 then (i : ℤ)
      else fmpGo s (i + 1) fuel ((if s.get? i = some '(' then depth + 1 else depth) - 1)
    else fmpGo s (i + 1) fuel (if s.get? i = some '(' then depth + 1 else depth)

/-- `findMatchingParen(s, openIdx)`. -/
def findMatchingParen (s : List Char) (openIdx : ℤ) : ℤ :=
  if openIdx < 0 then -1
  else fmpGo s openIdx.toNat (s.length - openIdx.toNat) 0

/-- The comma-splitting loop of `parseParamList` (balanced `{ } [ ] ( )`
tracked by a depth counter). -/
def pplGo : List Char → ℤ → List Char → List (List Char) → List (List Char)
  | [], _, current, result =>
    if jsTrim current ≠ [] then result ++ [jsTrim current] else result
  | c :: rest, depth, current, result =>
    let d1 := if ("\x7b[(".toList).contains c then depth + 1 else depth
    let d2 := if ("\x7d])".toList).contains c then d1 - 1 else d1
    if c = ',' ∧ d2 = 0 then pplGo rest d2 [] (result ++ [jsTrim current])
    else pplGo rest d2 (current ++ [c]) result

/-- `parseParamList(params)`: split on top-level commas, trim, and number
the entries from 1. -/
def parseParamList (params : List Char) : List (ℕ × List Char) :=
  (pplGo params 0 [] []).enum.map fun p => (p.1 + 1, p.2)

/-- The `extractFunction` forward scan from `funcStart`: skip the balanced
parameter list, then track the body's brace depth to zero.  Returns
`funcEnd` (exclusive), or `none` for the unbalanced-braces error. -/
def efGo (src : List Char) :
    ℕ → ℕ → SMRun → ℤ → Bool → Bool → ℤ → Bool → Option ℕ
  | _, 0, _, _, _, _, _, _ => none
  | i, fuel + 1, run, parenDepth, foundParenOpen, pastParams, braceDepth, foundBodyBrace =>
    if ¬ isInCode (smStep src i run).sm.state then
      efGo src (i + 1) fuel (smStep src i run) parenDepth foundParenOpen pastParams
        braceDepth foundBodyBrace
    else if ¬ pastParams then
      if src.get? i = some '(' then
        efGo src (i + 1) fuel (smStep src i run) (parenDepth + 1) true pastParams
          braceDepth foundBodyBrace
      else if src.get? i = some ')' then
        efGo src (i + 1) fuel (smStep src i run) (parenDepth - 1) foundParenOpen
          (foundParenOpen ∧ parenDepth - 1 = 0) braceDepth foundBodyBrace
      else
        efGo src (i + 1) fuel (smStep src i run) parenDepth foundParenOpen pastParams
          braceDepth foundBodyBrace
    else if src.get? i = some '\x7b' then
      efGo src (i + 1) fuel (smStep src i run) parenDepth foundParenOpen pastParams
        (braceDepth + 1) true
    else if src.get? i = some '\x7d' then
      if foundBodyBrace ∧ braceDepth - 1 = 0 then some (i + 1)
      else
        efGo src (i + 1) fuel (smStep src i run) parenDepth foundParenOpen pastParams
          (braceDepth - 1) foundBodyBrace
    else
      efGo src (i + 1) fuel (smStep src i run) parenDepth foundParenOpen pastParams
        braceDepth foundBodyBrace

/-- The record returned by `extractFunction` (`stop`/`len` are the
source's `end`/`length`). -/
structure ExtractResult where
  signature : List Char
  start : ℕ
  stop : ℕ
  len : ℕ
  params : List Char
  paramList : List (ℕ × List Char)
  beautified : List Char
deriving DecidableEq, Repr

/-- `extractFunction(src, charOffset)`; `none` models the two structured
error returns. -/
def extractFunction (src : List Char) (charOffset : ℕ) : Option ExtractResult :=
  let funcStart := findFunctionStart src charOffset
  if funcStart < 0 then none
  else
    match efGo src funcStart.toNat (src.length - funcStart.toNat) smInit 0 false false 0
      false with
    | none => none
    | some funcEnd =>
      let raw := jsSubstring src funcStart.toNat funcEnd
      let parenOpen := jsIndexOf raw "(".toList 0
      let parenClose := findMatchingParen raw parenOpen
      let bodyBraceIdx :=
        if parenClose ≥ 0 then jsIndexOf raw "\x7b".toList (parenClose.toNat + 1)
        else jsIndexOf raw "\x7b".toList 0
      let cut : ℤ := if bodyBraceIdx ≥ 0 then bodyBraceIdx else jsIndexOf raw "\x7b".toList 0
      let params :=
        if parenOpen ≥ 0 ∧ parenClose ≥ 0 then
          jsSubstring raw (parenOpen.toNat + 1) parenClose.toNat
        else "(unknown)".toList
      some
        { signature := jsTrim (jsSubstring raw 0 cut.toNat),
          start := funcStart.toNat, stop := funcEnd, len := funcEnd - funcStart.toNat,
          params := params, paramList := parseParamList params,
          beautified := (beautify raw).text }

/-- The scan loop of `extractSignature`: stop at the `)` closing the
parameter list and cut at the following `{` (within 20 characters). -/
def esGo (src : List Char) (funcStart : ℕ) : ℕ → ℕ → SMRun → ℤ → Bool → List Char
  | _, 0, _, _, _ => jsTrim (jsSubstring src funcStart (funcStart + 80))
  | i, fuel + 1, run, parenDepth, foundParenOpen =>
    if ¬ isInCode (smStep src i run).sm.state then
      esGo src funcStart (i + 1) fuel (smStep src i run) parenDepth foundParenOpen
    else
      if src.get? i = some ')' then
        if (if src.get? i = some '(' then foundParenOpen || true else foundParenOpen)
            ∧ (if src.get? i = some '(' then parenDepth + 1 else parenDepth) - 1 = 0 then
          let afterParams := jsSubstring src (i + 1) (min src.length (i + 20))
          let braceIdx := jsIndexOf afterParams "\x7b".toList 0
          jsTrim (jsSubstring src funcStart
            (if braceIdx ≥ 0 then i + 1 + braceIdx.toNat else i + 1))
        else
          esGo src funcStart (i + 1) fuel (smStep src i run)
            ((if src.get? i = some '(' then parenDepth + 1 else parenDepth) - 1)
            (if src.get? i = some '(' then true else foundParenOpen)
      else
        esGo src funcStart (i + 1) fuel (smStep src i run)
          (if src.get? i = some '(' then parenDepth + 1 else parenDepth)
          (if src.get? i = some '(' then true else foundParenOpen)

/-- `extractSignature(src, funcStart)`. -/
def extractSignature (src : List Char) (funcStart : ℕ) : List Char :=
  esGo src funcStart funcStart (min src.length (funcStart + 500) - funcStart) smInit 0 false

/-- Modelled from the spec: the `--stack` nesting listing of `extract-fn`
is produced by CLI code that is not among the source files.  Per the spec,
the nesting stack is every candidate containing the offset, sorted
smallest-first (depth 0 = tightest); the candidates are exactly the
qualifying entries the `findFunctionStart` scan pops. -/
def nestingStack (src : List Char) (offset : ℕ) : List FFSBest :=
  ((ffsScan src offset).cands).insertionSort fun a b => ffsSpan a ≤ ffsSpan b

/-! ### Minimality of the scanner's best candidate -/

lemma selMinFold_spec :
    ∀ (l : List FFSBest) (b : FFSBest),
      ∃ r, l.foldl selMinStep (some b) = some r ∧ (r = b ∨ r ∈ l) ∧
        ffsSpan r ≤ ffsSpan b ∧ ∀ c ∈ l, ffsSpan r ≤ ffsSpan c := by
  intro l
  induction l with
  | nil => intro b; exact ⟨b, rfl, Or.inl rfl, le_refl _, by simp⟩
  | cons c0 l ih =>
    intro b
    rw [List.foldl_cons]
    rw [show selMinStep (some b) c0
      = (if ffsSpan c0 < ffsSpan b then some c0 else some b) from rfl]
    by_cases hlt : ffsSpan c0 < ffsSpan b
    · rw [if_pos hlt]
      obtain ⟨r, h1, h2, h3, h4⟩ := ih c0
      refine ⟨r, h1, ?_, by omega, ?_⟩
      · rcases h2 with h2 | h2
        · exact Or.inr (by simp [h2])
        · exact Or.inr (by simp [h2])
      · intro c hc
        rcases List.mem_cons.mp hc with hc | hc
        · subst hc; exact h3
        · exact h4 c hc
    · rw [if_neg hlt]
      obtain ⟨r, h1, h2, h3, h4⟩ := ih b
      refine ⟨r, h1, ?_, h3, ?_⟩
      · rcases h2 with h2 | h2
        · exact Or.inl h2
        · exact Or.inr (by simp [h2])
      · intro c hc
        rcases List.mem_cons.mp hc with hc | hc
        · subst hc; omega
        · exact h4 c hc

lemma selMin_spec {l : List FFSBest} {b : FFSBest} (h : selMin l = some b) :
    b ∈ l ∧ ∀ c ∈ l, ffsSpan b ≤ ffsSpan c := by
  cases l with
  | nil => simp [selMin] at h
  | cons c0 l =>
    rw [selMin, List.foldl_cons, show selMinStep none c0 = some c0 from rfl] at h
    obtain ⟨r, h1, h2, h3, h4⟩ := selMinFold_spec l c0
    rw [h1] at h
    replace h := Option.some.inj h
    subst h
    refine ⟨?_, ?_⟩
    · rcases h2 with h2 | h2
      · simp [h2]
      · simp [h2]
    · intro c hc
      rcases List.mem_cons.mp hc with hc | hc
      · subst hc; exact h3
      · exact h4 c hc

/-- The scan invariant: `bestFunc` is the span-minimum of the recorded
candidates, and every candidate has a non-negative signature start and
contains the query offset. -/
def FFSInv (offset : ℕ) (st : FFSState) : Prop :=
  st.best = selMin st.cands ∧
  ∀ c ∈ st.cands, 0 ≤ c.sigStart ∧ c.sigStart ≤ (offset : ℤ) ∧ (offset : ℤ) ≤ c.stop

lemma ffsStep_inv {src : List Char} {offset j : ℕ} {st : FFSState}
    (h : FFSInv offset st) : FFSInv offset (ffsStep src offset j st) := by
  rw [ffsStep.eq_def]
  split_ifs with h1 h2 h3
  all_goals try exact ⟨h.1, h.2⟩
  all_goals (
    cases hL : st.stack.getLast? with
    | none => exact ⟨h.1, h.2⟩
    | some entry =>
      dsimp only
      by_cases hq : entry.sigStart ≥ 0 ∧ (offset : ℤ) ≥ entry.sigStart ∧
          (offset : ℤ) ≤ (j : ℤ)
      · rw [if_pos hq]
        constructor
        · show selMinStep st.best _ = selMin (st.cands ++ [_])
          rw [selMin, List.foldl_append, ← selMin, ← h.1]
          rfl
        · intro c hc
          rcases List.mem_append.mp hc with hc | hc
          · exact h.2 c hc
          · simp at hc
            subst hc
            exact ⟨hq.1, hq.2.1, hq.2.2⟩
      · rw [if_neg hq]
        exact ⟨h.1, h.2⟩)

lemma ffsGo_inv {src : List Char} {offset : ℕ} :
    ∀ (n j : ℕ) (st : FFSState), FFSInv offset st →
      FFSInv offset (ffsGo src offset j n st) := by
  intro n
  induction n with
  | zero => intro j st h; exact h
  | succ n ih =>
    intro j st h
    rw [ffsGo]
    exact ih (j + 1) _ (ffsStep_inv h)

lemma ffsScan_inv (src : List Char) (offset : ℕ) : FFSInv offset (ffsScan src offset) :=
  ffsGo_inv _ _ _ ⟨rfl, by simp [ffsInit]⟩

/-- The buffer of scenario S3. -/
def s3Buffer : List Char :=
  "function outer()\x7bfunction inner()\x7breturn 1\x7d\x7d".toList

/-! ## Claim C7 -/

set_option maxRecDepth 16000 in
/-- C7: on `function outer(){function inner(){return 1}}` at offset 35,
`findFunctionStart` returns 17, the extracted (depth-0) signature contains
`inner`, the nesting stack is `inner` then `outer` with the depth-0 span
strictly smaller; and in general, when the scan's function stack empties,
the chosen enclosing function is a recorded candidate containing the
offset whose span is minimal among all candidates. -/
theorem c7_enclosing_function_nesting :
    (findFunctionStart s3Buffer 35 = 17 ∧
     (extractFunction s3Buffer 35).map (fun r => containsSub r.signature "inner".toList)
       = some true ∧
     nestingStack s3Buffer 35 = [⟨17, 33, 42⟩, ⟨0, 16, 43⟩] ∧
     containsSub (extractSignature s3Buffer 0) "outer".toList = true ∧
     ffsSpan ⟨17, 33, 42⟩ < ffsSpan ⟨0, 16, 43⟩) ∧
    (∀ (src : List Char) (offset : ℕ) (b : FFSBest),
      (ffsScan src offset).stack = [] → (ffsScan src offset).best = some b →
      findFunctionStart src offset = b.sigStart ∧
      b ∈ (ffsScan src offset).cands ∧
      (b.sigStart ≤ (offset : ℤ) ∧ (offset : ℤ) ≤ b.stop) ∧
      ∀ c ∈ (ffsScan src offset).cands, ffsSpan b ≤ ffsSpan c) := by
  constructor
  · refine ⟨by decide, by decide, by decide, by decide, by decide⟩
  · intro src offset b hstack hbest
    obtain ⟨hinv1, hinv2⟩ := ffsScan_inv src offset
    rw [hbest] at hinv1
    obtain ⟨hmem, hmin⟩ := selMin_spec hinv1.symm
    have hfin : ffsFinal offset (ffsScan src offset) = some b := by
      rw [ffsFinal, hstack, List.foldl_nil, hbest]
    refine ⟨?_, hmem, ?_, hmin⟩
    · rw [findFunctionStart, hfin]
    · exact ⟨(hinv2 b hmem).2.1, (hinv2 b hmem).2.2⟩

set_option maxRecDepth 16000 in
/-- Witness for C7's general clause: at the S3 buffer and offset 35 the
scan's stack empties, a best candidate exists, and the theorem applies. -/
theorem c7_witness :
    (ffsScan s3Buffer 35).stack = [] ∧
    ∃ b, (ffsScan s3Buffer 35).best = some b ∧
      findFunctionStart s3Buffer 35 = b.sigStart ∧
      ∀ c ∈ (ffsScan s3Buffer 35).cands, ffsSpan b ≤ ffsSpan c := by
  have hstack : (ffsScan s3Buffer 35).stack = [] := by decide
  cases hb : (ffsScan s3Buffer 35).best with
  | none => exact absurd hb (by decide)
  | some b =>
    have h := c7_enclosing_function_nesting.2 s3Buffer 35 b hstack hb
    exact ⟨hstack, b, rfl, h.1, fun c hc => h.2.2.2 c hc⟩

end BundleAnalyzer
